import Mathlib

/-!
# Verification of the SPMD collective-computation kernel

Shallow embedding of the repository's MPI teaching examples
(`MPI_Parallel_Sum_Course.c`, `MPI_Matrix_Vector.c`, `MPI_Timing_Max.c`)
and of the generalized SPMD kernel they instantiate.

Machine doubles holding integral values are modelled exactly (`ℤ`, `ℚ`):
the claims under scrutiny are about exact values, with floating-point
rounding out of scope by the spec's own "within floating-point tolerance"
qualification.
-/

namespace SPMD

/-! ## The cyclic range-sum loop (MPI_Parallel_Sum_Course.c, Phase 5)

The C code is
```
double i = (double)prank;
double step = (double)csize;
while (i <= n) { sum += i; i += step; }
```
`sumWhile n step i acc` is that loop. Termination needs `0 < step`,
which MPI guarantees (`groupSize ≥ 1`); the conjunct `0 < step` in the
guard only makes the function total and never fires in any use below,
where `step` is always the positive group size. -/
def sumWhile (n : ℤ) (step : ℕ) (i : ℤ) (acc : ℤ) : ℤ :=
  if h : i ≤ n ∧ 0 < step then sumWhile n step (i + step) (acc + i) else acc
termination_by (n + 1 - i).toNat
decreasing_by
  obtain ⟨h1, h2⟩ := h
  omega

/-- Rank `r`'s partial sum: the loop started at `i = prank` with
`step = csize` and `sum = 0`. -/
def rankPartial (n : ℤ) (P r : ℕ) : ℤ :=
  sumWhile n P r 0

/-! ## Collective Transport: reduce-to-root

`MPI_Reduce` is external library code; modelled from the spec (§4.3):
after return, root holds `v_0 op v_1 op … op v_{P-1}` combined in rank
order, i.e. a left fold over the per-rank contributions listed by rank
index. Returns `none` for an empty group (never arises: `P ≥ 1`). -/
def reduceInRankOrder {α : Type} (op : α → α → α) : List α → Option α
  | [] => none
  | v :: vs => some (vs.foldl op v)

/-- Modelled from the spec: `reduce(sendValue, op, root)` over a group of
`P` ranks whose rank-`r` contribution is `v r`. -/
def reduceToRoot {α : Type} (op : α → α → α) (P : ℕ) (v : ℕ → α) : Option α :=
  reduceInRankOrder op ((List.range P).map v)

/-- Left fold of `+` over a list starting from `a` is `a` plus the sum. -/
theorem foldl_add_eq {α : Type} [AddCommMonoid α] (l : List α) (a : α) :
    l.foldl (· + ·) a = a + l.sum := by
  induction l generalizing a with
  | nil => simp
  | cons x xs ih => simp [ih, add_assoc]

/-- Sum of the list `[f 0, …, f (n-1)]` is the `Finset.range` sum. -/
theorem map_range_sum {α : Type} [AddCommMonoid α] (f : ℕ → α) (n : ℕ) :
    ((List.range n).map f).sum = ∑ r ∈ Finset.range n, f r := by
  induction n with
  | zero => simp
  | succ m ih => rw [List.range_succ]; simp [ih, Finset.sum_range_succ]

/-- The rank-order sum reduction computes the sum over ranks. -/
theorem reduceToRoot_add {α : Type} [AddCommMonoid α] (P : ℕ) (hP : 1 ≤ P)
    (v : ℕ → α) :
    reduceToRoot (· + ·) P v = some (∑ r ∈ Finset.range P, v r) := by
  obtain ⟨Q, rfl⟩ : ∃ Q, P = Q + 1 := ⟨P - 1, by omega⟩
  simp only [reduceToRoot, List.range_succ_eq_map, List.map_cons, reduceInRankOrder]
  rw [List.map_map, foldl_add_eq, Finset.sum_range_succ', map_range_sum]
  simp [Function.comp, Nat.succ_eq_add_one, add_comm]

/-- Iteration count of the loop: the values visited are
`i, i+step, …` while `≤ n`. -/
def iterCnt (n : ℤ) (step : ℕ) (i : ℤ) : ℕ :=
  if i ≤ n then (n - i).toNat / step + 1 else 0

/-- Closed form of the loop: it adds `i, i+step, …`, one term per
iteration, `iterCnt` many of them. -/
theorem sumWhile_closed (step : ℕ) (hs : 0 < step) (n : ℤ) :
    ∀ m : ℕ, ∀ i acc : ℤ, (n + 1 - i).toNat = m →
      sumWhile n step i acc
        = acc + ∑ k ∈ Finset.range (iterCnt n step i), (i + k * step) := by
  intro m
  induction m using Nat.strong_induction_on with
  | _ m ih =>
    intro i acc hm
    rw [sumWhile]
    by_cases hin : i ≤ n
    · rw [dif_pos ⟨hin, hs⟩]
      rw [ih ((n + 1 - (i + step)).toNat) (by omega) (i + step) (acc + i) rfl]
      by_cases hnext : i + step ≤ n
      · have hA : (n - (i + step)).toNat = (n - i).toNat - step := by omega
        have hge : step ≤ (n - i).toNat := by omega
        have hcnt : iterCnt n step i = iterCnt n step (i + step) + 1 := by
          simp only [iterCnt, if_pos hin, if_pos hnext, hA]
          rw [Nat.div_eq_sub_div hs hge]
        rw [hcnt, Finset.sum_range_succ']
        have hsum :
            ∑ k ∈ Finset.range (iterCnt n step (i + step)),
                (i + ((k : ℤ) + 1) * step)
              = ∑ k ∈ Finset.range (iterCnt n step (i + step)),
                  (i + step + (k : ℤ) * step) :=
          Finset.sum_congr rfl (fun k _ => by ring)
        push_cast
        rw [hsum]
        ring
      · have hc1 : iterCnt n step i = 1 := by
          have : (n - i).toNat < step := by omega
          simp [iterCnt, if_pos hin, Nat.div_eq_of_lt this]
        have hc0 : iterCnt n step (i + step) = 0 := by
          simp [iterCnt, hnext]
        rw [hc1, hc0]
        simp
    · rw [dif_neg (by tauto)]
      simp [iterCnt, hin]

/-- Usable form of `sumWhile_closed`. -/
theorem sumWhile_eq_sum (step : ℕ) (hs : 0 < step) (n i acc : ℤ) :
    sumWhile n step i acc
      = acc + ∑ k ∈ Finset.range (iterCnt n step i), (i + k * step) :=
  sumWhile_closed step hs n _ i acc rfl

/-- Combinatorial core: the cyclic shards `{r, r+P, r+2P, …} ∩ [0, m]`
for `r < P` cover `0..m` exactly once, so their sums add up to the
sequential sum. -/
theorem cyclic_cover (P : ℕ) (hP : 0 < P) (m : ℕ) :
    ∑ r ∈ Finset.range P,
        ∑ k ∈ Finset.range (if r ≤ m then (m - r) / P + 1 else 0), (r + k * P)
      = ∑ j ∈ Finset.range (m + 1), j := by
  rw [Finset.sum_sigma']
  refine Finset.sum_bij' (fun p _ => p.1 + p.2 * P)
    (fun j _ => ⟨j % P, j / P⟩) ?_ ?_ ?_ ?_ ?_
  · rintro ⟨r, k⟩ hp
    simp only [Finset.mem_sigma, Finset.mem_range] at hp
    obtain ⟨hr, hk⟩ := hp
    dsimp only
    by_cases hrm : r ≤ m
    · rw [if_pos hrm] at hk
      have hkP : k * P ≤ m - r := (Nat.le_div_iff_mul_le hP).mp (by omega)
      rw [Finset.mem_range]
      omega
    · rw [if_neg hrm] at hk; omega
  · intro j hj
    rw [Finset.mem_range] at hj
    simp only [Finset.mem_sigma, Finset.mem_range]
    refine ⟨Nat.mod_lt _ hP, ?_⟩
    have hjm : j % P ≤ m := le_trans (Nat.mod_le _ _) (by omega)
    rw [if_pos hjm]
    have hdm : j / P * P + j % P = j := Nat.div_add_mod' j P
    have hle : j / P * P ≤ m - j % P := by omega
    have := (Nat.le_div_iff_mul_le hP).mpr hle
    omega
  · rintro ⟨r, k⟩ hp
    simp only [Finset.mem_sigma, Finset.mem_range] at hp
    obtain ⟨hr, _⟩ := hp
    dsimp only
    have h1 : (r + k * P) % P = r := by
      rw [Nat.add_mul_mod_self_right, Nat.mod_eq_of_lt hr]
    have h2 : (r + k * P) / P = k := by
      rw [Nat.add_mul_div_right _ _ hP, Nat.div_eq_of_lt hr]
      omega
    simp [h1, h2]
  · intro j _
    dsimp only
    rw [Nat.mod_add_div']
  · rintro ⟨r, k⟩ _
    rfl

/-- The sum the ranks' cyclic partial sums reduce to, rewritten through
the closed form and the exact-cover bijection. -/
theorem rankPartial_total (P : ℕ) (hP : 1 ≤ P) (n : ℤ) (hn : 0 ≤ n) :
    ∑ r ∈ Finset.range P, rankPartial n P r
      = ∑ i ∈ Finset.range (n.toNat + 1), (i : ℤ) := by
  have hs : 0 < P := hP
  have hpart : ∀ r : ℕ, rankPartial n P r
      = ((∑ k ∈ Finset.range (if r ≤ n.toNat then (n.toNat - r) / P + 1 else 0),
            (r + k * P) : ℕ) : ℤ) := by
    intro r
    rw [rankPartial, sumWhile_eq_sum P hs, zero_add]
    have hiter : iterCnt n P (r : ℤ)
        = if r ≤ n.toNat then (n.toNat - r) / P + 1 else 0 := by
      unfold iterCnt
      by_cases h : (r : ℤ) ≤ n
      · rw [if_pos h, if_pos (by omega)]
        congr 2
        omega
      · rw [if_neg h, if_neg (by omega)]
    rw [hiter]
    push_cast
    rfl
  calc ∑ r ∈ Finset.range P, rankPartial n P r
      = ((∑ r ∈ Finset.range P,
            ∑ k ∈ Finset.range (if r ≤ n.toNat then (n.toNat - r) / P + 1 else 0),
              (r + k * P) : ℕ) : ℤ) := by
        rw [Nat.cast_sum]
        exact Finset.sum_congr rfl (fun r _ => hpart r)
    _ = ((∑ j ∈ Finset.range (n.toNat + 1), j : ℕ) : ℤ) := by
        rw [cyclic_cover P hs n.toNat]
    _ = ∑ i ∈ Finset.range (n.toNat + 1), (i : ℤ) := by
        push_cast
        rfl

/-- C1: for every group size `P ≥ 1` and every integral broadcast bound
`n ≥ 0`, the per-rank cyclic partial sums (`i = r, r+P, …` while
`i ≤ n`) combined by the rank-order sum reduction at rank 0 equal the
sequential sum `Σ i, i = 0..n`; in particular `n = 10`, `P = 4` yields
`55`, and `n = 0` with any `P ≥ 1` yields `0`. -/
theorem cyclicSum_matches_sequential :
    (∀ (P : ℕ) (n : ℤ), 1 ≤ P → 0 ≤ n →
        reduceToRoot (· + ·) P (fun r => rankPartial n P r)
          = some (∑ i ∈ Finset.range (n.toNat + 1), (i : ℤ))) ∧
    reduceToRoot (· + ·) 4 (fun r => rankPartial 10 4 r) = some 55 ∧
    (∀ P : ℕ, 1 ≤ P →
        reduceToRoot (· + ·) P (fun r => rankPartial 0 P r) = some 0) := by
  have main : ∀ (P : ℕ) (n : ℤ), 1 ≤ P → 0 ≤ n →
      reduceToRoot (· + ·) P (fun r => rankPartial n P r)
        = some (∑ i ∈ Finset.range (n.toNat + 1), (i : ℤ)) := by
    intro P n hP hn
    rw [reduceToRoot_add P hP, rankPartial_total P hP n hn]
  refine ⟨main, ?_, ?_⟩
  · have h10 : (10 : ℤ).toNat = 10 := rfl
    rw [main 4 10 (by norm_num) (by norm_num), h10]
    norm_num [Finset.sum_range_succ]
  · intro P hP
    rw [main P 0 hP le_rfl]
    norm_num

/-- C10: a rank whose start index already exceeds the broadcast bound
contributes a partial sum of exactly 0 (its loop body never runs), and
for a negative bound the reduced total at the coordinator is exactly 0. -/
theorem cyclicSum_empty_ranks :
    (∀ (P r : ℕ) (n : ℤ), 1 ≤ P → r < P → n < r → rankPartial n P r = 0) ∧
    (∀ (P : ℕ) (n : ℤ), 1 ≤ P → n < 0 →
        reduceToRoot (· + ·) P (fun r => rankPartial n P r) = some 0) := by
  have hzero : ∀ (P r : ℕ) (n : ℤ), n < r → rankPartial n P r = 0 := by
    intro P r n h
    rw [rankPartial, sumWhile, dif_neg]
    rintro ⟨hc, -⟩
    omega
  refine ⟨fun P r n _ _ h => hzero P r n h, ?_⟩
  intro P n hP hn
  rw [reduceToRoot_add P hP]
  have hz : ∑ r ∈ Finset.range P, rankPartial n P r = 0 :=
    Finset.sum_eq_zero (fun r _ => hzero P r n (by omega))
  rw [hz]

/-! ## Contiguous Shard Plan (MPI_Matrix_Vector.c)

The reference example divides the matrix by rows: each rank gets
`dim / csize` rows, rank `r`'s block starting at row `r * (dim / csize)`
(the block `MPI_Scatter` sends it). In the spec's terms:
`offset = r * (N / P)`, `length = N / P`. -/
def shardOffset (N P r : ℕ) : ℕ := r * (N / P)

/-- Length of every rank's contiguous shard. -/
def shardLen (N P : ℕ) : ℕ := N / P

/-- C2: when `P ∣ N`, the contiguous per-rank `(offset, length)` pairs
partition `[0, N)` exactly: every index lies in exactly one rank's
shard — no gaps, no overlaps. -/
theorem contiguousShards_partition (N P : ℕ) (hP : 1 ≤ P) (hdvd : N % P = 0) :
    ∀ j, j < N →
      ∃! r, r < P ∧ shardOffset N P r ≤ j ∧ j < shardOffset N P r + shardLen N P := by
  intro j hj
  have hNP : P * (N / P) = N := Nat.mul_div_cancel' (Nat.dvd_of_mod_eq_zero hdvd)
  have hL0 : 0 < N / P := by
    rcases Nat.eq_zero_or_pos (N / P) with h0 | h0
    · rw [h0, Nat.mul_zero] at hNP; omega
    · exact h0
  refine ⟨j / (N / P), ⟨?_, ?_, ?_⟩, ?_⟩
  · exact (Nat.div_lt_iff_lt_mul hL0).mpr (by omega)
  · exact Nat.div_mul_le_self j (N / P)
  · have h1 := Nat.div_add_mod' j (N / P)
    have h2 := Nat.mod_lt j hL0
    unfold shardOffset shardLen
    omega
  · rintro r ⟨hr, h1, h2⟩
    simp only [shardOffset, shardLen] at h1 h2
    have ha : r ≤ j / (N / P) := (Nat.le_div_iff_mul_le hL0).mpr h1
    have hb : j / (N / P) < r + 1 :=
      (Nat.div_lt_iff_lt_mul hL0).mpr (by rw [Nat.add_mul, Nat.one_mul]; omega)
    omega

/-! ## Collective Transport: scatter and gather

`MPI_Scatter` / `MPI_Gather` are external library code; modelled from
the spec (§4.3): scatter hands rank `r` the `r`-th contiguous
`countPerRank`-element block of the root's send buffer; gather
concatenates the ranks' blocks in rank order at the root. -/

/-- Modelled from the spec: the block rank `r` receives from
`scatter(sendBuffer@root, recvBuffer, countPerRank, root)`. -/
def scatterBlock {α : Type} (arr : List α) (cnt r : ℕ) : List α :=
  (arr.drop (r * cnt)).take cnt

/-- Modelled from the spec: root's receive buffer after
`gather(sendBuffer, recvBuffer@root, countPerRank, root)` — all ranks'
blocks concatenated in rank order. -/
def gatherBlocks {α : Type} (P : ℕ) (blk : ℕ → List α) : List α :=
  (List.range P).flatMap blk

/-- Shifting the scattered array by one block shifts the block index. -/
theorem scatterBlock_succ {α : Type} (arr : List α) (cnt r : ℕ) :
    scatterBlock arr cnt (r + 1) = scatterBlock (arr.drop cnt) cnt r := by
  simp only [scatterBlock, List.drop_drop]
  congr 1
  ring

/-- C5: scattering a root-held array of `P * cnt` elements in contiguous
blocks and gathering each rank's block back unchanged (identity
transform) reconstructs the original array exactly, rank `r`'s block
sitting at position `r * cnt`. -/
theorem scatter_gather_roundtrip {α : Type} (P : ℕ) :
    ∀ (arr : List α) (cnt : ℕ), arr.length = P * cnt →
      gatherBlocks P (fun r => scatterBlock arr cnt r) = arr := by
  induction P with
  | zero =>
    intro arr cnt h
    simp only [Nat.zero_mul, List.length_eq_zero] at h
    simp [gatherBlocks, h]
  | succ Q ih =>
    intro arr cnt h
    rw [gatherBlocks, List.range_succ_eq_map, List.flatMap_cons, List.flatMap_map]
    have hblk : ∀ r : ℕ, scatterBlock arr cnt (r + 1)
        = scatterBlock (arr.drop cnt) cnt r := fun r => scatterBlock_succ arr cnt r
    have htail : (List.range Q).flatMap (fun r => scatterBlock arr cnt (r + 1))
        = arr.drop cnt := by
      have := ih (arr.drop cnt) cnt (by simp [h, Nat.succ_mul])
      rw [gatherBlocks] at this
      rw [← this]
      exact List.flatMap_congr (fun r _ => hblk r)
    calc scatterBlock arr cnt 0
          ++ (List.range Q).flatMap ((fun r => scatterBlock arr cnt r) ∘ Nat.succ)
        = scatterBlock arr cnt 0
          ++ (List.range Q).flatMap (fun r => scatterBlock arr cnt (r + 1)) := rfl
      _ = arr.take cnt ++ arr.drop cnt := by
          rw [htail]; simp [scatterBlock]
      _ = arr := List.take_append_drop cnt arr

/-! ## Shard Planner: the contiguous plan's feasibility check -/

/-- Error signalled when the group size does not divide the dataset. -/
inductive PlanError : Type
  | partitionError : PlanError
deriving DecidableEq

/-- The five collective primitives, for tracing which collectives a run
issues. -/
inductive CollectiveOp : Type
  | broadcast | scatter | gather | reduce | barrier
deriving DecidableEq

/-- Modelled from the spec: `planContiguous(N, P) -> ShardPlan | Error`
(§4.2) is not implemented by the reference examples (they divide with
truncating integer division and assume divisibility, spec §9); the spec
defines it as: if `N mod P ≠ 0` signal `PartitionError`, otherwise
return `(offset, length) = (r * (N / P), N / P)` per rank. -/
def planContiguous (N P : ℕ) : Except PlanError (List (ℕ × ℕ)) :=
  if N % P = 0 then
    Except.ok ((List.range P).map fun r => (shardOffset N P r, shardLen N P))
  else
    Except.error PlanError.partitionError

/-- Modelled from the spec: the kernel's control flow (§2, §7) — the
Shard Planner runs and validates before Collective Transport is used;
on a planning error the run stops and no collective call is issued,
otherwise the contiguous pipeline issues its collectives (broadcast of
shared inputs, scatter of blocks, gather of results). The second
component is the trace of collective calls issued. -/
def contiguousKernelRun (N P : ℕ) :
    Except PlanError (List (ℕ × ℕ)) × List CollectiveOp :=
  match planContiguous N P with
  | Except.error e => (Except.error e, [])
  | Except.ok plan =>
      (Except.ok plan,
        [CollectiveOp.broadcast, CollectiveOp.scatter, CollectiveOp.gather])

/-- C3: whenever `P` does not divide `N`, the contiguous plan signals
`PartitionError` and the run issues no collective call at all — the
dataset is never silently truncated. `N = 10`, `P = 3` is an instance. -/
theorem planContiguous_rejects_indivisible (N P : ℕ) (hP : 1 ≤ P)
    (hnd : N % P ≠ 0) :
    planContiguous N P = Except.error PlanError.partitionError ∧
    (contiguousKernelRun N P).1 = Except.error PlanError.partitionError ∧
    (contiguousKernelRun N P).2 = [] := by
  have hplan : planContiguous N P = Except.error PlanError.partitionError := by
    rw [planContiguous, if_neg hnd]
  refine ⟨hplan, ?_, ?_⟩ <;> rw [contiguousKernelRun, hplan]

/-! ## Local Compute Kernel: matrix-vector dot-product rows
(MPI_Matrix_Vector.c)

The C code, per local row `i` of the scattered block:
```
double s = 0;
for (int j = 0; j != dim; ++j)
    s += mat[i * dim + j] * vec[j];
lres[i] = s;
```
accumulated left-to-right in index order `j = 0..dim-1`. -/
def dotRow (mat vec : ℕ → ℚ) (dim i : ℕ) : ℚ :=
  (List.range dim).foldl (fun s j => s + mat (i * dim + j) * vec j) 0

/-- The per-rank local result: `dim / csize` rows of outputs computed
from the local block `mat` and the broadcast vector `vec`. -/
def localRows (dim csize : ℕ) (mat vec : List ℚ) : List ℚ :=
  (List.range (dim / csize)).map
    (fun i => dotRow (fun k => mat.getD k 0) (fun j => vec.getD j 0) dim i)

/-- The whole matrix-vector run: rank `r` receives the `r`-th
`dim * dim / csize`-element block of the root's matrix via scatter,
computes its rows against the broadcast vector, and the root gathers the
per-rank results in rank order. -/
def matVecRun (dim csize : ℕ) (tmat vec : List ℚ) : List ℚ :=
  gatherBlocks csize
    (fun r => localRows dim csize (scatterBlock tmat (dim * dim / csize) r) vec)

/-- Left fold accumulating `f j` over `j ∈ l` is the sum over `l`. -/
theorem foldl_add_map {α : Type} [AddCommMonoid α] (f : ℕ → α) (l : List ℕ)
    (a : α) :
    l.foldl (fun s j => s + f j) a = a + (l.map f).sum := by
  induction l generalizing a with
  | nil => simp
  | cons x xs ih => simp [ih, add_assoc]

/-- C4: the local compute kernel's output `i` is exactly
`Σ_j block[i*N + j] * vector[j]`, accumulated in index order
`j = 0..N-1`; and for `N = 4`, `P = 2`, the identity matrix and vector
`[1,2,3,4]`, the result gathered at the coordinator is `[1,2,3,4]`. -/
theorem dotRowKernel_correct :
    (∀ (mat vec : ℕ → ℚ) (dim i : ℕ),
        dotRow mat vec dim i
          = ∑ j ∈ Finset.range dim, mat (i * dim + j) * vec j) ∧
    matVecRun 4 2 [1, 0, 0, 0, 0, 1, 0, 0, 0, 0, 1, 0, 0, 0, 0, 1]
      [1, 2, 3, 4] = [1, 2, 3, 4] := by
  constructor
  · intro mat vec dim i
    rw [dotRow, foldl_add_map, zero_add, map_range_sum]
  · norm_num [matVecRun, gatherBlocks, localRows, dotRow, scatterBlock,
      List.range_succ, List.getD]

/-! ## Reduction in rank order -/

/-- The chained expression `v 0 op v 1 op … op v k`, combined left to
right in rank-index order — the spec's fixed evaluation order. -/
def leftAssocChain {α : Type} (op : α → α → α) (v : ℕ → α) : ℕ → α
  | 0 => v 0
  | k + 1 => op (leftAssocChain op v k) (v (k + 1))

/-- Folding from `v 0` over `v 1, …, v Q` builds the left-associated
rank-order chain. -/
theorem foldl_chain {α : Type} (op : α → α → α) (v : ℕ → α) :
    ∀ Q : ℕ, ((List.range Q).map (fun k => v (k + 1))).foldl op (v 0)
      = leftAssocChain op v Q := by
  intro Q
  induction Q with
  | zero => simp [leftAssocChain]
  | succ Q ih =>
    rw [List.range_succ, List.map_append, List.foldl_append, ih]
    simp [leftAssocChain]

/-- C6: for every operator and every group of `P ≥ 1 `ranks, the reduce
delivered at the root is `v 0 op v 1 op … op v (P-1)` combined in
rank-index order, and the result depends only on the per-rank inputs
(same inputs on ranks `0..P-1` give the identical result). -/
theorem reduce_rank_order_deterministic {α : Type} (op : α → α → α) (P : ℕ)
    (hP : 1 ≤ P) (v : ℕ → α) :
    reduceToRoot op P v = some (leftAssocChain op v (P - 1)) ∧
    (∀ w : ℕ → α, (∀ r, r < P → v r = w r) →
      reduceToRoot op P v = reduceToRoot op P w) := by
  constructor
  · obtain ⟨Q, rfl⟩ : ∃ Q, P = Q + 1 := ⟨P - 1, by omega⟩
    simp only [reduceToRoot, List.range_succ_eq_map, List.map_cons,
      reduceInRankOrder, List.map_map]
    rw [show v ∘ Nat.succ = fun k => v (k + 1) from rfl, foldl_chain]
    simp
  · intro w hw
    unfold reduceToRoot
    congr 1
    exact List.map_congr_left (fun r hr => hw r (List.mem_range.mp hr))

/-! ## Max-reduction (MPI_Timing_Max.c) -/

/-- The left fold of `max` starts no lower than its seed and dominates
every list element; its value is the seed or a list element. -/
theorem foldl_max_spec {α : Type} [LinearOrder α] :
    ∀ (as : List α) (a : α),
      (as.foldl max a = a ∨ as.foldl max a ∈ as) ∧
      a ≤ as.foldl max a ∧ ∀ y ∈ as, y ≤ as.foldl max a := by
  intro as
  induction as with
  | nil => intro a; simp
  | cons b bs ih =>
    intro a
    obtain ⟨hmem, hle, hall⟩ := ih (max a b)
    refine ⟨?_, ?_, ?_⟩
    · rcases hmem with h | h
      · rcases max_choice a b with hc | hc
        · left; rw [List.foldl_cons, h, hc]
        · right; rw [List.foldl_cons, h, hc]; exact List.mem_cons_self b bs
      · right; exact List.mem_cons_of_mem b h
    · exact le_trans (le_max_left a b) hle
    · intro y hy
      rcases List.mem_cons.mp hy with rfl | hy
      · exact le_trans (le_max_right a y) hle
      · exact hall y hy

/-- A nonempty-list max reduction returns the greatest element of the
list. -/
theorem reduceMax_spec {α : Type} [LinearOrder α] (l : List α) (hl : l ≠ []) :
    ∃ x, reduceInRankOrder max l = some x ∧ x ∈ l ∧ ∀ y ∈ l, y ≤ x := by
  obtain ⟨a, as, rfl⟩ := List.exists_cons_of_ne_nil hl
  obtain ⟨hmem, hle, hall⟩ := foldl_max_spec as a
  refine ⟨as.foldl max a, rfl, ?_, ?_⟩
  · rcases hmem with h | h
    · rw [h]; exact List.mem_cons_self a as
    · exact List.mem_cons_of_mem a h
  · intro y hy
    rcases List.mem_cons.mp hy with rfl | hy
    · exact hle
    · exact hall y hy

/-- The greatest element of a nonempty list is unique, so the max
reduction agrees across permuted lists. -/
theorem reduceMax_perm {α : Type} [LinearOrder α] (l l' : List α)
    (hl : l ≠ []) (hp : l'.Perm l) :
    reduceInRankOrder max l' = reduceInRankOrder max l := by
  have hl' : l' ≠ [] := by
    intro h
    rw [h] at hp
    exact hl (List.Perm.nil_eq hp).symm
  obtain ⟨x, hx, hxm, hxb⟩ := reduceMax_spec l hl
  obtain ⟨x', hx', hxm', hxb'⟩ := reduceMax_spec l' hl'
  rw [hx, hx']
  have h1 : x' ≤ x := hxb x' (hp.mem_iff.mp hxm')
  have h2 : x ≤ x' := hxb' x (hp.mem_iff.mpr hxm)
  rw [le_antisymm h1 h2]

/-- C7: reducing per-rank durations with `max` delivers exactly the
maximum of the `P` durations at the coordinator, and the result is
unchanged under any permutation of which rank holds which duration. -/
theorem maxReduce_exact_and_permutation_invariant (P : ℕ) (hP : 1 ≤ P)
    (d : ℕ → ℚ) :
    (∃ x, reduceToRoot max P d = some x ∧ (∃ r, r < P ∧ d r = x) ∧
        (∀ r, r < P → d r ≤ x)) ∧
    (∀ d' : ℕ → ℚ, ((List.range P).map d').Perm ((List.range P).map d) →
        reduceToRoot max P d' = reduceToRoot max P d) := by
  have hne : (List.range P).map d ≠ [] := by
    simp only [ne_eq, List.map_eq_nil_iff, List.range_eq_nil]
    omega
  constructor
  · obtain ⟨x, hx, hxm, hxb⟩ := reduceMax_spec ((List.range P).map d) hne
    refine ⟨x, hx, ?_, ?_⟩
    · obtain ⟨r, hr, hrx⟩ := List.mem_map.mp hxm
      exact ⟨r, List.mem_range.mp hr, hrx⟩
    · intro r hr
      exact hxb (d r) (List.mem_map.mpr ⟨r, List.mem_range.mpr hr, rfl⟩)
  · intro d' hperm
    exact reduceMax_perm _ _ hne hperm

/-! ## Collective Transport: broadcast

`MPI_Bcast` is external library code; modelled from the spec (§4.3). -/

/-- Modelled from the spec: `broadcast(buffer, count, root)` — the
per-rank buffer state after the call, as a function of the per-rank
buffer state before it: every rank ends up holding the root's bytes. -/
def broadcast {β : Type} (root : ℕ) (buf : ℕ → List β) : ℕ → List β :=
  fun _ => buf root

/-- C8: after a broadcast returns, every rank's buffer holds exactly the
bytes of the root's buffer at call time; the result does not depend on
non-root ranks' prior buffer contents (they are discarded), and the
root's own buffer is unchanged. -/
theorem broadcast_delivers_root_bytes {β : Type} (P root : ℕ)
    (hroot : root < P) (buf : ℕ → List β) :
    (∀ r, r < P → broadcast root buf r = buf root) ∧
    broadcast root buf root = buf root ∧
    (∀ buf' : ℕ → List β, buf' root = buf root →
        ∀ r, r < P → broadcast root buf' r = broadcast root buf r) := by
  refine ⟨fun r _ => rfl, rfl, fun buf' h r _ => ?_⟩
  simp [broadcast, h]

/-! ## Result Sink (logRes, MPI_Matrix_Vector.c)

The C code is
```
for (int i = 0; i != n; ++i)
    fprintf(f, "%lf ", res[i]);
```
so the file content is the concatenation of `fmt(res[i]) ++ " "` over
the elements in order — note the space after *every* element, the last
one included. `fmt` abstracts `%lf` formatting. -/
def logRes {α : Type} (fmt : α → String) (res : List α) : String :=
  res.foldl (fun acc x => acc ++ fmt x ++ " ") ""

/-- The spec's words for the Result Sink line (§6): the elements in
order, separated by a single space, nothing else. Stated as a second
definition to compare the code against the claim. -/
def sinkLineSpec {α : Type} (fmt : α → String) : List α → String
  | [] => ""
  | [x] => fmt x
  | x :: y :: xs => fmt x ++ " " ++ sinkLineSpec fmt (y :: xs)

/-- `%lf` formatting restricted to integral double values: six digits
after the decimal point. -/
def fmtLf (z : ℤ) : String := toString z ++ ".000000"

/-- Accumulator of the `logRes` fold factors out on the left. -/
theorem logRes_foldl_out {α : Type} (fmt : α → String) :
    ∀ (l : List α) (acc : String),
      l.foldl (fun a x => a ++ fmt x ++ " ") acc = acc ++ logRes fmt l := by
  intro l
  induction l with
  | nil => intro acc; simp [logRes, String.append_empty]
  | cons x xs ih =>
    intro acc
    rw [List.foldl_cons, ih]
    have hR : logRes fmt (x :: xs) = fmt x ++ " " ++ logRes fmt xs := by
      rw [logRes, List.foldl_cons, ih]
      simp [String.empty_append, String.append_assoc]
    rw [hR]
    simp [String.append_assoc]

/-- Peeling one element off the front of the written line. -/
theorem logRes_cons {α : Type} (fmt : α → String) (x : α) (xs : List α) :
    logRes fmt (x :: xs) = fmt x ++ " " ++ logRes fmt xs := by
  rw [logRes, List.foldl_cons, logRes_foldl_out]
  simp [String.empty_append, String.append_assoc]

/-- C9 (counterexample): already for the one-element result `[1.0]` the
file content is `"1.000000 "` — a trailing space after the last
element — not the bare space-separated line `"1.000000"`. -/
theorem logRes_trailing_space_counterexample :
    logRes fmtLf [(1 : ℤ)] ≠ sinkLineSpec fmtLf [(1 : ℤ)] := by decide

/-- C9 (amended): `logRes` writes the elements in order, each formatted
and followed by one space — i.e. the space-separated line of the spec
plus exactly one trailing space (and nothing for an empty result). -/
theorem logRes_format {α : Type} (fmt : α → String) (res : List α) :
    logRes fmt res
      = if res.isEmpty then "" else sinkLineSpec fmt res ++ " " := by
  induction res with
  | nil => simp [logRes]
  | cons x xs ih =>
    rw [logRes_cons]
    cases xs with
    | nil =>
      simp [logRes, sinkLineSpec, String.append_empty]
    | cons y ys =>
      rw [ih]
      simp only [List.isEmpty_cons, if_neg Bool.false_ne_true, sinkLineSpec]
      simp [String.append_assoc]

/-! ## Concrete witnesses -/

/-- Witness for C1 at `P = 4`, `n = 10`. -/
theorem cyclicSum_matches_sequential_witness :
    1 ≤ 4 ∧ 0 ≤ (10 : ℤ) ∧
    reduceToRoot (· + ·) 4 (fun r => rankPartial 10 4 r)
      = some (∑ i ∈ Finset.range ((10 : ℤ).toNat + 1), (i : ℤ)) :=
  ⟨by decide, by decide,
    cyclicSum_matches_sequential.1 4 10 (by decide) (by decide)⟩

/-- Witness for C2 at `N = 8`, `P = 4`. -/
theorem contiguousShards_partition_witness :
    1 ≤ 4 ∧ 8 % 4 = 0 ∧
    (∀ j, j < 8 → ∃! r, r < 4 ∧ shardOffset 8 4 r ≤ j ∧
        j < shardOffset 8 4 r + shardLen 8 4) :=
  ⟨by decide, by decide, contiguousShards_partition 8 4 (by decide) (by decide)⟩

/-- Witness for C3 at the spec's scenario `N = 10`, `P = 3`. -/
theorem planContiguous_rejects_indivisible_witness :
    1 ≤ 3 ∧ 10 % 3 ≠ 0 ∧
    (planContiguous 10 3 = Except.error PlanError.partitionError ∧
     (contiguousKernelRun 10 3).1 = Except.error PlanError.partitionError ∧
     (contiguousKernelRun 10 3).2 = []) :=
  ⟨by decide, by decide,
    planContiguous_rejects_indivisible 10 3 (by decide) (by decide)⟩

/-- Witness for C5 at `P = 2`, `cnt = 2`, array `[1,2,3,4]`. -/
theorem scatter_gather_roundtrip_witness :
    ([(1 : ℤ), 2, 3, 4] : List ℤ).length = 2 * 2 ∧
    gatherBlocks 2 (fun r => scatterBlock [(1 : ℤ), 2, 3, 4] 2 r)
      = [(1 : ℤ), 2, 3, 4] :=
  ⟨by decide, scatter_gather_roundtrip 2 [(1 : ℤ), 2, 3, 4] 2 (by decide)⟩

/-- Witness for C6 at `op = (+)` on `ℤ`, `P = 2`, `v r = r`. -/
theorem reduce_rank_order_deterministic_witness :
    1 ≤ 2 ∧
    (reduceToRoot (· + ·) 2 (fun r : ℕ => (r : ℤ))
        = some (leftAssocChain (· + ·) (fun r : ℕ => (r : ℤ)) (2 - 1)) ∧
     (∀ w : ℕ → ℤ, (∀ r : ℕ, r < 2 → (r : ℤ) = w r) →
        reduceToRoot (· + ·) 2 (fun r : ℕ => (r : ℤ))
          = reduceToRoot (· + ·) 2 w)) :=
  ⟨by decide,
    reduce_rank_order_deterministic (· + ·) 2 (by decide) (fun r : ℕ => (r : ℤ))⟩

/-- Witness for C7 at `P = 2`, `d r = r`. -/
theorem maxReduce_witness :
    1 ≤ 2 ∧
    ((∃ x, reduceToRoot max 2 (fun r : ℕ => (r : ℚ)) = some x ∧
        (∃ r : ℕ, r < 2 ∧ (r : ℚ) = x) ∧ (∀ r : ℕ, r < 2 → (r : ℚ) ≤ x)) ∧
     (∀ d' : ℕ → ℚ,
        ((List.range 2).map d').Perm
            ((List.range 2).map (fun r : ℕ => (r : ℚ))) →
          reduceToRoot max 2 d' = reduceToRoot max 2 (fun r : ℕ => (r : ℚ)))) :=
  ⟨by decide,
    maxReduce_exact_and_permutation_invariant 2 (by decide)
      (fun r : ℕ => (r : ℚ))⟩

/-- Witness for C8 at `P = 2`, `root = 0`, all buffers `[7]`. -/
theorem broadcast_delivers_root_bytes_witness :
    0 < 2 ∧
    ((∀ r, r < 2 → broadcast 0 (fun _ : ℕ => [(7 : ℕ)]) r
        = (fun _ : ℕ => [(7 : ℕ)]) 0) ∧
     broadcast 0 (fun _ : ℕ => [(7 : ℕ)]) 0 = (fun _ : ℕ => [(7 : ℕ)]) 0 ∧
     (∀ buf' : ℕ → List ℕ, buf' 0 = (fun _ : ℕ => [(7 : ℕ)]) 0 →
        ∀ r, r < 2 → broadcast 0 buf' r
          = broadcast 0 (fun _ : ℕ => [(7 : ℕ)]) r)) :=
  ⟨by decide,
    broadcast_delivers_root_bytes 2 0 (by decide) (fun _ => [(7 : ℕ)])⟩

/-- Witness for C10 at `P = 4`, `r = 2`, `n = -3`. -/
theorem cyclicSum_empty_ranks_witness :
    (1 ≤ 4 ∧ 2 < 4 ∧ (-3 : ℤ) < ((2 : ℕ) : ℤ) ∧ rankPartial (-3) 4 2 = 0) ∧
    ((-3 : ℤ) < 0 ∧
      reduceToRoot (· + ·) 4 (fun r => rankPartial (-3) 4 r) = some 0) :=
  ⟨⟨by decide, by decide, by decide,
      cyclicSum_empty_ranks.1 4 2 (-3) (by decide) (by decide) (by decide)⟩,
   ⟨by decide, cyclicSum_empty_ranks.2 4 (-3) (by decide) (by decide)⟩⟩
